import Mathlib

set_option autoImplicit false

/-!
Verification of the `plugin-simplecache` file cache (`file.go`) against its
natural-language specification.  The Go code is shallowly embedded: machine
integers become `Nat`/`Int` with explicit wrapping, the filesystem becomes an
association list from cleaned path components to byte lists, and wall-clock
time is an `Int` counting nanoseconds since the Unix epoch (Go `time.Time`
comparisons are nanosecond-precise while the stored expiry is whole seconds).
-/

namespace SimpleCache

/-- Number of nanoseconds in one second, the scale between Go `time.Time`
instants and the Unix-seconds value stored on disk. -/
def nsPerSec : Int := 1000000000

/-- Go `Time.Unix()`: whole seconds since the epoch, flooring (Go normalises
`time.Time` to `sec` plus a nanosecond in `[0, 1e9)`; Lean's `Int` division
by a positive divisor is the same floor). -/
def unixSec (t : Int) : Int := t / nsPerSec

/-- Go `uint64(x)` conversion of a (possibly negative) 64-bit integer:
reduce modulo 2^64 into `[0, 2^64)`. -/
def toUInt64Wrap (x : Int) : Nat := (x % (2 ^ 64 : Int)).toNat

/-- Go `int64(u)` reinterpretation of an unsigned 64-bit value. -/
def toInt64 (n : Nat) : Int :=
  if n < 2 ^ 63 then (n : Int) else (n : Int) - 2 ^ 64

/-- Little-endian byte decomposition: `leBytes k n` is the `k` low-order
bytes of `n`, least significant first (Go `binary.LittleEndian.PutUint64`). -/
def leBytes : Nat → Nat → List Nat
  | 0, _ => []
  | k + 1, n => (n % 256) :: leBytes k (n / 256)

/-- Little-endian byte recomposition (Go `binary.LittleEndian.Uint64`). -/
def leUint (l : List Nat) : Nat := l.foldr (fun b acc => b + 256 * acc) 0

/-- One shift-and-conditionally-xor round of the bit-reflected CRC-32
computation with the IEEE polynomial `0xEDB88320`. -/
def crc32Round (c : Nat) : Nat :=
  if c % 2 = 1 then (c / 2) ^^^ 0xEDB88320 else c / 2

/-- Iterate `crc32Round`. -/
def crcRounds : Nat → Nat → Nat
  | 0, c => c
  | k + 1, c => crcRounds k (crc32Round c)

/-- Fold one input byte into the running CRC-32 state. -/
def crc32Byte (c b : Nat) : Nat := crcRounds 8 (c ^^^ (b % 256))

/-- Running CRC-32 state over a byte list. -/
def crc32Aux : Nat → List Nat → Nat
  | c, [] => c
  | c, b :: rest => crc32Aux (crc32Byte c b) rest

/-- Go `crc32.Checksum(data, crc32.IEEETable)`: bit-reflected CRC-32 with
initial and final value `0xFFFFFFFF`-complemented. -/
def crc32 (data : List Nat) : Nat := crc32Aux 0xFFFFFFFF data ^^^ 0xFFFFFFFF

/-- UTF-8 encoding of one character, as Go `[]byte(string)` produces. -/
def utf8Char (c : Char) : List Nat :=
  let n := c.toNat
  if n < 0x80 then [n]
  else if n < 0x800 then [0xC0 ||| n / 64, 0x80 ||| n % 64]
  else if n < 0x10000 then
    [0xE0 ||| n / 4096, 0x80 ||| n / 64 % 64, 0x80 ||| n % 64]
  else
    [0xF0 ||| n / 262144, 0x80 ||| n / 4096 % 64, 0x80 ||| n / 64 % 64,
      0x80 ||| n % 64]

/-- UTF-8 bytes of a string, Go `[]byte(key)`. -/
def strBytes (s : String) : List Nat := (s.data.map utf8Char).flatten

/-- Lower-case hexadecimal digit for a value below 16. -/
def hexDigit (n : Nat) : Char :=
  if n < 10 then Char.ofNat (48 + n) else Char.ofNat (87 + n)

/-- Go `hex.EncodeToString` of a single byte: two lower-case hex digits. -/
def hexByte (n : Nat) : String :=
  ⟨[hexDigit (n % 256 / 16), hexDigit (n % 16)]⟩

/-- «keyHash» from `file.go`: the four bytes of the CRC-32 of the key laid
out little-endian (`binary.LittleEndian.PutUint32`), least significant
byte first. -/
def keyHash (key : String) : List Nat :=
  leBytes 4 (crc32 (strBytes key))

/-- Character-level substitution of `strings.NewReplacer("/", "-", ":", "_")`:
both patterns are single ASCII bytes, so the replacer acts per character. -/
def sanitizeChar (c : Char) : Char :=
  if c = '/' then '-' else if c = ':' then '_' else c

/-- Sanitised final path component of a key. -/
def sanitize (s : String) : String := ⟨s.data.map sanitizeChar⟩

/-- One step of lexical path cleaning over a reversed component stack:
empty and `.` components vanish, `..` pops the previous component of a
relative path (Go `path/filepath.Clean` on a separator-joined string). -/
def cleanStep (acc : List String) (c : String) : List String :=
  if c = "" ∨ c = "." then acc
  else if c = ".." then
    match acc with
    | [] => [".."]
    | a :: rest => if a = ".." then ".." :: a :: rest else rest
  else c :: acc

/-- Tail of lexical cleaning, accumulating reversed components. -/
def cleanAux : List String → List String → List String
  | acc, [] => acc.reverse
  | acc, c :: rest => cleanAux (cleanStep acc c) rest

/-- Lexically cleaned component list of a relative path, the effect of Go
`filepath.Join` on the components it is handed. -/
def cleanComps (l : List String) : List String := cleanAux [] l

/-- «keyPath» from `file.go`: `filepath.Join` of the base path, the four
hex-encoded checksum bytes, and the sanitised key, as a cleaned component
list (the base directory is given pre-split into components). -/
def keyPath (base : List String) (key : String) : List String :=
  match keyHash key with
  | [b0, b1, b2, b3] =>
      cleanComps (base ++ [hexByte b0, hexByte b1, hexByte b2, hexByte b3,
        sanitize key])
  | _ => []

/-- Shard directory a key is meant to live in: the cleaned base followed by
the four hex-encoded checksum bytes. -/
def shardDir (base : List String) (key : String) : List String :=
  match keyHash key with
  | [b0, b1, b2, b3] =>
      cleanComps base ++ [hexByte b0, hexByte b1, hexByte b2, hexByte b3]
  | _ => []

/-- Filesystem state seen by the cache: an association list from cleaned
path components to file contents. -/
abbrev Store : Type := List (List String × List Nat)

/-- File contents at a path, when a file exists there. -/
def lookupStore : Store → List String → Option (List Nat)
  | [], _ => none
  | (q, v) :: rest, p => if q = p then some v else lookupStore rest p

/-- Create or overwrite the file at a path. -/
def insertStore : Store → List String → List Nat → Store
  | [], p, v => [(p, v)]
  | (q, w) :: rest, p, v =>
      if q = p then (p, v) :: rest else (q, w) :: insertStore rest p v

/-- Go `os.Remove`: delete the file at a path. -/
def eraseStore : Store → List String → Store
  | [], _ => []
  | (q, w) :: rest, p => if q = p then rest else (q, w) :: eraseStore rest p

/-- Expiry instant recorded in a file header: the first 8 bytes decoded as a
little-endian `uint64`, reinterpreted as `int64` seconds (`time.Unix`),
scaled to nanoseconds for comparison against `time.Now()`. -/
def decodeExpiryNs (b : List Nat) : Int :=
  toInt64 (leUint (b.take 8)) * nsPerSec

/-- Header written by «Set»: the absolute expiry `now + ttl` in Unix
seconds, converted through `uint64`, as 8 little-endian bytes. -/
def encodeHeader (tNow ttl : Int) : List Nat :=
  leBytes 8 (toUInt64Wrap (unixSec (tNow + ttl)))

/-- «fileCache.Set» from `file.go` on the store model.  The file is opened
with `O_RDWR|O_CREATE` — no truncation — and the header plus payload are
written at offset 0, so bytes of a longer previous entry beyond the newly
written length survive.  Absent filesystem errors the call reports success,
which the model renders as total. -/
def fcSet (base : List String) (store : Store) (key : String)
    (val : List Nat) (ttl tNow : Int) : Store :=
  let p := keyPath base key
  let old := (lookupStore store p).getD []
  let written := encodeHeader tNow ttl ++ val
  insertStore store p (written ++ old.drop written.length)

/-- Possible outcomes of «fileCache.Get»: a payload hit, the `errCacheMiss`
miss, or a Go runtime panic (`b[8:]` when the file is shorter than 8 bytes
and its zero-padded expiry has not passed). -/
inductive GetOutcome : Type
  | hit (payload : List Nat)
  | miss
  | panicked
deriving DecidableEq, Repr

/-- «fileCache.Get» from `file.go` on the store model: stat (miss when the
file is absent), read the whole file, decode the expiry from `b[:8]` —
`ioutil.ReadFile` returns a slice whose capacity is at least 512, so
slicing to 8 never panics and reads the file's bytes zero-padded, which is
also the value `leUint` gives on fewer than 8 bytes — and delete the file
and report a miss when that expiry is strictly before `time.Now()`.
Otherwise the code returns `b[8:]`: a Go runtime panic when the file is
shorter than 8 bytes (the high bound of `b[8:]` defaults to the length),
else the payload. -/
def fcGet (base : List String) (store : Store) (key : String) (tNow : Int) :
    Store × GetOutcome :=
  let p := keyPath base key
  match lookupStore store p with
  | none => (store, .miss)
  | some b =>
      if decodeExpiryNs b < tNow then (eraseStore store p, .miss)
      else if b.length < 8 then (store, .panicked)
      else (store, .hit (b.drop 8))

/-- Entries met by `filepath.Walk` during one vacuum tick: a walk/stat
error on an entry, a directory, a file that cannot be opened, or a
readable file with its contents. -/
inductive VEntry : Type
  | statErr
  | dir
  | openErr (contents : List Nat)
  | file (contents : List Nat)
deriving DecidableEq, Repr

/-- Pad a short header read to the 8-byte zero-initialised buffer `t`. -/
def padTo8 (l : List Nat) : List Nat := l ++ List.replicate (8 - l.length) 0

/-- One vacuum tick of «fileCache.vacuum» over the walked entries, returning
the entries that remain.  A walk error makes the callback return that error,
which aborts `filepath.Walk` — the remaining entries are left unvisited.  An
unopenable file is skipped.  `f.Read` on an empty file yields `(0, EOF)` and
the `err != nil && n != 8` guard skips it; a nonempty short read returns no
error, so the zero-padded buffer is decoded.  A decoded expiry strictly
before `time.Now()` deletes the file. -/
def vacuumRun (tNow : Int) : List VEntry → List VEntry
  | [] => []
  | .statErr :: rest => .statErr :: rest
  | .dir :: rest => .dir :: vacuumRun tNow rest
  | .openErr c :: rest => .openErr c :: vacuumRun tNow rest
  | .file c :: rest =>
      if c.length = 0 then .file c :: vacuumRun tNow rest
      else if decodeExpiryNs (padTo8 (c.take 8)) < tNow then vacuumRun tNow rest
      else .file c :: vacuumRun tNow rest

/-- Registry string «Get» and «Set» lock: `MutexAt(key)` on the raw key. -/
def lockKeyAccess (key : String) : String := key

/-- Registry string the vacuum pass locks for a key's file:
`MutexAt(filepath.Base(path))`, the last component of the cleaned path. -/
def lockKeyVacuum (base : List String) (key : String) : String :=
  (keyPath base key).getLastD "."

/-- Lock registry state of «pathMutex»: paths mapped to the live-reference
count of their `fileLock` handle.  Counts in the registry are positive in
every state the Go code reaches. -/
abbrev Registry : Type := List (String × Nat)

/-- Reference count registered for a path, zero when absent. -/
def regRef : Registry → String → Nat
  | [], _ => 0
  | (q, n) :: rest, p => if q = p then n else regRef rest p

/-- Whether the registry holds a handle for a path. -/
def regPresent (r : Registry) (p : String) : Bool :=
  match r with
  | [] => false
  | (q, _) :: rest => if q = p then true else regPresent rest p

/-- «pathMutex.MutexAt»: bump the reference count of an existing handle, or
insert a fresh handle with count 1. -/
def regAcquire : Registry → String → Registry
  | [], p => [(p, 1)]
  | (q, n) :: rest, p =>
      if q = p then (q, n + 1) :: rest else (q, n) :: regAcquire rest p

/-- Cleanup run by «fileLock.Unlock»/«fileLock.RUnlock»: decrement the
handle's reference count and delete the handle when it reaches zero. -/
def regRelease : Registry → String → Registry
  | [], _ => []
  | (q, n) :: rest, p =>
      if q = p then (if n ≤ 1 then rest else (q, n - 1) :: rest)
      else (q, n) :: regRelease rest p

/-- Registry operations: an acquire (`MutexAt`) or a release (the unlock
cleanup) on a path. -/
inductive RegOp : Type
  | acq (p : String)
  | rel (p : String)
deriving DecidableEq, Repr

/-- Apply one registry operation. -/
def regStep (r : Registry) : RegOp → Registry
  | .acq p => regAcquire r p
  | .rel p => regRelease r p

/-- Run a sequence of registry operations. -/
def regRun (r : Registry) : List RegOp → Registry
  | [] => r
  | op :: rest => regRun (regStep r op) rest

/-- Number of acquires of a path in an operation sequence. -/
def countAcq (p : String) : List RegOp → Nat
  | [] => 0
  | .acq q :: rest => (if q = p then 1 else 0) + countAcq p rest
  | .rel _ :: rest => countAcq p rest

/-- Number of releases of a path in an operation sequence. -/
def countRel (p : String) : List RegOp → Nat
  | [] => 0
  | .acq _ :: rest => countRel p rest
  | .rel q :: rest => (if q = p then 1 else 0) + countRel p rest

/-- A sequence is valid from a registry state when no prefix releases a
path more often than the state's count plus the prefix's acquires allow —
each release is by a caller that has completed a matching acquire. -/
def ValidFrom (r : Registry) (ops : List RegOp) : Prop :=
  ∀ p n, countRel p (ops.take n) ≤ regRef r p + countAcq p (ops.take n)

/-- All reference counts stored in the registry are positive. -/
def RegWf (r : Registry) : Prop := ∀ e ∈ r, 0 < e.2

/-- A sequence of registry operations is valid from a state when every
release acts on a path whose handle is currently referenced — each release
is performed by a caller that completed a matching earlier acquire. -/
def validSeq (r : Registry) : List RegOp → Bool
  | [] => true
  | .acq p :: rest => validSeq (regAcquire r p) rest
  | .rel p :: rest => decide (0 < regRef r p) && validSeq (regRelease r p) rest

/-- Registry keys are pairwise distinct. -/
def RegNodup (r : Registry) : Prop := (r.map Prod.fst).Nodup

/-! ## Path-cleaning lemmas -/

/-- A path component that lexical cleaning passes through unchanged. -/
def NormalComp (c : String) : Prop := c ≠ "" ∧ c ≠ "." ∧ c ≠ ".."

theorem cleanStep_normal (acc : List String) (c : String) (h : NormalComp c) :
    cleanStep acc c = c :: acc := by
  obtain ⟨h1, h2, h3⟩ := h
  simp [cleanStep, h1, h2, h3]

theorem cleanAux_eq_foldl (l : List String) :
    ∀ acc, cleanAux acc l = (List.foldl cleanStep acc l).reverse := by
  induction l with
  | nil => intro acc; rfl
  | cons c rest ih => intro acc; simp [cleanAux, List.foldl, ih]

theorem cleanComps_append_singleton (l : List String) (c : String)
    (h : NormalComp c) : cleanComps (l ++ [c]) = cleanComps l ++ [c] := by
  simp [cleanComps, cleanAux_eq_foldl, List.foldl_append, cleanStep_normal _ _ h]

theorem cleanComps_append_normal (ns : List String) :
    (∀ c ∈ ns, NormalComp c) →
      ∀ l, cleanComps (l ++ ns) = cleanComps l ++ ns := by
  induction ns with
  | nil => intro _ l; simp
  | cons c rest ih =>
      intro h l
      have hstep : l ++ c :: rest = (l ++ [c]) ++ rest := by simp
      rw [hstep, ih (fun x hx => h x (List.mem_cons_of_mem _ hx)),
        cleanComps_append_singleton l c (h c (List.mem_cons_self c rest))]
      simp

theorem hexDigit_ne_dot : ∀ k, k < 16 → hexDigit k ≠ '.' := by decide

theorem hexByte_normal (n : Nat) : NormalComp (hexByte n) := by
  refine ⟨?_, ?_, ?_⟩ <;> intro h <;>
    have hd := congrArg String.data h <;> simp only [hexByte] at hd
  · exact List.cons_ne_nil _ _ hd
  · exact absurd (congrArg List.length hd) (by simp)
  · have h1 : hexDigit (n % 256 / 16) = '.' := by
      have := congrArg (fun l => l.headD ' ') hd
      simpa using this
    exact hexDigit_ne_dot (n % 256 / 16) (by omega) h1

theorem sanitizeChar_eq_dot {c : Char} (h : sanitizeChar c = '.') : c = '.' := by
  unfold sanitizeChar at h
  split_ifs at h with h1 h2
  · exact absurd h (by decide)
  · exact absurd h (by decide)
  · exact h

theorem sanitize_normal (key : String) (h0 : key ≠ "") (h1 : key ≠ ".")
    (h2 : key ≠ "..") : NormalComp (sanitize key) := by
  refine ⟨?_, ?_, ?_⟩ <;> intro h <;> have hd := congrArg String.data h <;>
    simp only [sanitize] at hd
  · exact h0 (String.ext (by simpa using hd))
  · apply h1
    apply String.ext
    show key.data = ['.']
    cases hck : key.data with
    | nil => rw [hck] at hd; simp at hd
    | cons a as =>
        rw [hck] at hd
        simp only [List.map_cons] at hd
        have has : as = [] := by
          have := congrArg List.length hd
          simpa using this
        subst has
        simp only [List.map_nil] at hd
        have ha : sanitizeChar a = '.' := by simpa using hd
        rw [sanitizeChar_eq_dot ha]
  · apply h2
    apply String.ext
    show key.data = ['.', '.']
    cases hck : key.data with
    | nil => rw [hck] at hd; simp at hd
    | cons a as =>
        cases has : as with
        | nil => rw [hck, has] at hd; simp at hd
        | cons b bs =>
            have hbs : bs = [] := by
              rw [hck, has] at hd
              have := congrArg List.length hd
              simpa using this
            subst hbs
            rw [hck, has] at hd
            simp only [List.map_cons, List.map_nil] at hd
            have hab : sanitizeChar a = '.' ∧ sanitizeChar b = '.' := by
              constructor
              · have := congrArg (fun l => l.headD ' ') hd
                simpa using this
              · have := congrArg (fun l => l.getLastD ' ') hd
                simpa using this
            rw [sanitizeChar_eq_dot hab.1, sanitizeChar_eq_dot hab.2]

theorem keyHash_eq (key : String) :
    keyHash key = [crc32 (strBytes key) % 256,
      crc32 (strBytes key) / 256 % 256,
      crc32 (strBytes key) / 256 / 256 % 256,
      crc32 (strBytes key) / 256 / 256 / 256 % 256] := rfl

theorem keyPath_eq (base : List String) (key : String) :
    keyPath base key = cleanComps (base ++
      [hexByte (crc32 (strBytes key) % 256),
        hexByte (crc32 (strBytes key) / 256 % 256),
        hexByte (crc32 (strBytes key) / 256 / 256 % 256),
        hexByte (crc32 (strBytes key) / 256 / 256 / 256 % 256),
        sanitize key]) := by
  rw [keyPath, keyHash_eq]

theorem keyPath_of_normal (base : List String) (key : String)
    (h0 : key ≠ "") (h1 : key ≠ ".") (h2 : key ≠ "..") :
    keyPath base key = cleanComps base ++
      [hexByte (crc32 (strBytes key) % 256),
        hexByte (crc32 (strBytes key) / 256 % 256),
        hexByte (crc32 (strBytes key) / 256 / 256 % 256),
        hexByte (crc32 (strBytes key) / 256 / 256 / 256 % 256),
        sanitize key] := by
  rw [keyPath_eq]
  exact cleanComps_append_normal _
    (by
      intro c hc
      simp only [List.mem_cons, List.mem_singleton] at hc
      rcases hc with rfl | rfl | rfl | rfl | rfl | hfalse
      · exact hexByte_normal _
      · exact hexByte_normal _
      · exact hexByte_normal _
      · exact hexByte_normal _
      · exact sanitize_normal key h0 h1 h2
      · exact absurd hfalse (List.not_mem_nil c)) base

/-! ## Store and integer lemmas -/

theorem lookupStore_insert (s : Store) (p : List String) (v : List Nat) :
    lookupStore (insertStore s p v) p = some v := by
  induction s with
  | nil => simp [insertStore, lookupStore]
  | cons e rest ih =>
      obtain ⟨q, w⟩ := e
      by_cases h : q = p
      · subst h; simp [insertStore, lookupStore]
      · simp [insertStore, lookupStore, h, ih]

theorem length_leBytes (k n : Nat) : (leBytes k n).length = k := by
  induction k generalizing n with
  | zero => rfl
  | succ k ih => simp [leBytes, ih]

theorem leUint_leBytes (k : Nat) :
    ∀ n, leUint (leBytes k n) = n % 256 ^ k := by
  induction k with
  | zero => intro n; simp [leBytes, leUint]; omega
  | succ k ih =>
      intro n
      rw [pow_succ', Nat.mod_mul, leBytes]
      simp only [leUint, List.foldr_cons] at ih ⊢
      rw [ih]

theorem take_length_append (a b : List Nat) (k : Nat) (h : a.length = k) :
    (a ++ b).take k = a := by
  subst h
  exact List.take_left a b

theorem toInt64_roundtrip (x : Int) (hlo : -(2 ^ 63) ≤ x) (hhi : x < 2 ^ 63) :
    toInt64 (toUInt64Wrap x) = x := by
  unfold toInt64 toUInt64Wrap
  split <;> omega

theorem toUInt64Wrap_lt (x : Int) : toUInt64Wrap x < 2 ^ 64 := by
  unfold toUInt64Wrap
  omega

/-- Expiry decoded back from a header written by «Set»: the stored
Unix-seconds value survives the `uint64` byte round-trip, and within the
`int64` range it is exactly the second `Set` computed. -/
theorem decodeExpiryNs_encode (tNow ttl : Int) (tail : List Nat)
    (hlo : -(2 ^ 63) ≤ unixSec (tNow + ttl))
    (hhi : unixSec (tNow + ttl) < 2 ^ 63) :
    decodeExpiryNs (encodeHeader tNow ttl ++ tail) =
      unixSec (tNow + ttl) * nsPerSec := by
  unfold decodeExpiryNs encodeHeader
  rw [take_length_append _ _ _ (length_leBytes _ _), leUint_leBytes,
    Nat.mod_eq_of_lt (by have := toUInt64Wrap_lt (unixSec (tNow + ttl)); omega),
    toInt64_roundtrip _ hlo hhi]

theorem length_encodeHeader (tNow ttl : Int) :
    (encodeHeader tNow ttl).length = 8 := length_leBytes _ _

/-! ## Lock-registry lemmas -/

theorem regRef_acquire (r : Registry) (p x : String) :
    regRef (regAcquire r p) x = regRef r x + (if x = p then 1 else 0) := by
  induction r with
  | nil =>
      by_cases hx : x = p
      · subst hx; simp [regAcquire, regRef]
      · simp [regAcquire, regRef, hx, Ne.symm hx]
  | cons e rest ih =>
      obtain ⟨q, n⟩ := e
      by_cases hq : q = p
      · subst hq
        by_cases hx : q = x
        · subst hx; simp [regAcquire, regRef]
        · simp [regAcquire, regRef, hx, Ne.symm hx]
      · by_cases hx : q = x
        · subst hx
          simp [regAcquire, regRef, hq, Ne.symm hq]
        · simp [regAcquire, regRef, hq, hx, ih]

theorem regRef_of_notmem (r : Registry) (p : String)
    (h : p ∉ r.map Prod.fst) : regRef r p = 0 := by
  induction r with
  | nil => rfl
  | cons e rest ih =>
      obtain ⟨q, n⟩ := e
      simp only [List.map_cons, List.mem_cons] at h
      push_neg at h
      simp [regRef, Ne.symm h.1, ih h.2]

theorem regRef_release (r : Registry) (p x : String) (hnd : RegNodup r) :
    regRef (regRelease r p) x = regRef r x - (if x = p then 1 else 0) := by
  induction r with
  | nil => simp [regRelease, regRef]
  | cons e rest ih =>
      obtain ⟨q, n⟩ := e
      rw [RegNodup, List.map_cons, List.nodup_cons] at hnd
      obtain ⟨hq_notin, hnd_rest⟩ := hnd
      by_cases hq : q = p
      · subst hq
        by_cases hn : n ≤ 1
        · by_cases hx : q = x
          · subst hx
            simp [regRelease, regRef, hn, regRef_of_notmem rest q hq_notin]
          · simp [regRelease, regRef, hn, hx, Ne.symm hx]
        · by_cases hx : q = x
          · subst hx; simp [regRelease, regRef, hn]
          · simp [regRelease, regRef, hn, hx, Ne.symm hx]
      · by_cases hx : q = x
        · subst hx
          simp [regRelease, regRef, hq, Ne.symm hq]
        · simp [regRelease, regRef, hq, hx, ih hnd_rest]

theorem mem_keys_regAcquire {r : Registry} {p x : String}
    (h : x ∈ (regAcquire r p).map Prod.fst) :
    x ∈ r.map Prod.fst ∨ x = p := by
  induction r with
  | nil =>
      rcases List.mem_map.mp h with ⟨e, hmem, rfl⟩
      simp only [regAcquire, List.mem_singleton] at hmem
      subst hmem
      exact Or.inr rfl
  | cons hd rest ih =>
      obtain ⟨q, n⟩ := hd
      rcases List.mem_map.mp h with ⟨e, hmem, rfl⟩
      by_cases hq : q = p
      · subst hq
        rw [regAcquire, if_pos rfl] at hmem
        rcases List.mem_cons.mp hmem with rfl | hmem
        · exact Or.inl (by simp)
        · exact Or.inl (List.mem_map_of_mem _ (List.mem_cons_of_mem _ hmem))
      · rw [regAcquire, if_neg hq] at hmem
        rcases List.mem_cons.mp hmem with rfl | hmem
        · exact Or.inl (by simp)
        · rcases ih (List.mem_map_of_mem _ hmem) with h2 | h2
          · refine Or.inl ?_
            rw [List.map_cons]
            exact List.mem_cons_of_mem _ h2
          · exact Or.inr h2

theorem regNodup_acquire (r : Registry) (p : String) (hnd : RegNodup r) :
    RegNodup (regAcquire r p) := by
  induction r with
  | nil => simp [regAcquire, RegNodup]
  | cons e rest ih =>
      obtain ⟨q, n⟩ := e
      rw [RegNodup, List.map_cons, List.nodup_cons] at hnd
      obtain ⟨hq_notin, hnd_rest⟩ := hnd
      by_cases hq : q = p
      · subst hq
        rw [RegNodup] at *
        simpa [regAcquire] using And.intro hq_notin hnd_rest
      · rw [RegNodup] at *
        simp only [regAcquire, if_neg hq, List.map_cons, List.nodup_cons]
        refine ⟨?_, ih hnd_rest⟩
        intro hmem
        rcases mem_keys_regAcquire hmem with h | h
        · exact hq_notin h
        · exact hq h

theorem keys_regRelease_sublist (r : Registry) (p : String) :
    ((regRelease r p).map Prod.fst).Sublist (r.map Prod.fst) := by
  induction r with
  | nil => simp [regRelease]
  | cons e rest ih =>
      obtain ⟨q, n⟩ := e
      by_cases hq : q = p
      · subst hq
        by_cases hn : n ≤ 1
        · simp only [regRelease, if_pos rfl, if_pos hn, List.map_cons]
          exact (List.Sublist.refl _).cons _
        · simp [regRelease, hn]
      · simp only [regRelease, if_neg hq, List.map_cons]
        exact ih.cons₂ _

theorem regNodup_release (r : Registry) (p : String) (hnd : RegNodup r) :
    RegNodup (regRelease r p) :=
  List.Nodup.sublist (keys_regRelease_sublist r p) hnd

theorem regWf_acquire (r : Registry) (p : String) (hwf : RegWf r) :
    RegWf (regAcquire r p) := by
  induction r with
  | nil =>
      intro e he
      simp only [regAcquire, List.mem_singleton] at he
      subst he; exact Nat.one_pos
  | cons hd rest ih =>
      obtain ⟨q, n⟩ := hd
      have hwf_rest : RegWf rest := fun e he => hwf e (List.mem_cons_of_mem _ he)
      by_cases hq : q = p
      · subst hq
        intro e he
        rw [regAcquire, if_pos rfl] at he
        rcases List.mem_cons.mp he with rfl | he
        · exact Nat.succ_pos n
        · exact hwf_rest e he
      · intro e he
        rw [regAcquire, if_neg hq] at he
        rcases List.mem_cons.mp he with rfl | he
        · exact hwf (q, n) (List.mem_cons_self _ _)
        · exact ih hwf_rest e he

theorem regWf_release (r : Registry) (p : String) (hwf : RegWf r) :
    RegWf (regRelease r p) := by
  induction r with
  | nil => intro e he; simp [regRelease] at he
  | cons hd rest ih =>
      obtain ⟨q, n⟩ := hd
      have hwf_rest : RegWf rest := fun e he => hwf e (List.mem_cons_of_mem _ he)
      by_cases hq : q = p
      · subst hq
        by_cases hn : n ≤ 1
        · simpa [regRelease, hn] using hwf_rest
        · intro e he
          rw [regRelease, if_pos rfl, if_neg hn] at he
          rcases List.mem_cons.mp he with rfl | he
          · show 0 < n - 1
            omega
          · exact hwf_rest e he
      · intro e he
        rw [regRelease, if_neg hq] at he
        rcases List.mem_cons.mp he with rfl | he
        · exact hwf (q, n) (List.mem_cons_self _ _)
        · exact ih hwf_rest e he

theorem regPresent_iff (r : Registry) (hwf : RegWf r) (q : String) :
    regPresent r q = true ↔ 0 < regRef r q := by
  induction r with
  | nil => simp [regPresent, regRef]
  | cons e rest ih =>
      obtain ⟨s, n⟩ := e
      have hwf_rest : RegWf rest := fun e he => hwf e (List.mem_cons_of_mem _ he)
      by_cases hs : s = q
      · subst hs
        simp only [regPresent, regRef, if_pos rfl]
        exact ⟨fun _ => hwf (s, n) (List.mem_cons_self _ _), fun _ => rfl⟩
      · simp only [regPresent, regRef, if_neg hs]
        exact ih hwf_rest

theorem regWf_run (ops : List RegOp) :
    ∀ r, RegWf r → RegWf (regRun r ops) := by
  induction ops with
  | nil => intro r h; exact h
  | cons op rest ih =>
      intro r h
      cases op with
      | acq p => exact ih _ (regWf_acquire r p h)
      | rel p => exact ih _ (regWf_release r p h)

theorem regNodup_run (ops : List RegOp) :
    ∀ r, RegNodup r → RegNodup (regRun r ops) := by
  induction ops with
  | nil => intro r h; exact h
  | cons op rest ih =>
      intro r h
      cases op with
      | acq p => exact ih _ (regNodup_acquire r p h)
      | rel p => exact ih _ (regNodup_release r p h)

theorem regRun_ref (ops : List RegOp) :
    ∀ (r : Registry) (x : String), RegNodup r → validSeq r ops = true →
      regRef (regRun r ops) x + countRel x ops =
        regRef r x + countAcq x ops := by
  induction ops with
  | nil => intro r x _ _; simp [regRun, countAcq, countRel]
  | cons op rest ih =>
      intro r x hnd hv
      cases op with
      | acq p =>
          rw [validSeq] at hv
          have hrec := ih (regAcquire r p) x (regNodup_acquire r p hnd) hv
          rw [regRef_acquire] at hrec
          simp only [regRun, regStep, countAcq, countRel]
          by_cases hx : x = p
          · subst hx; simp only [eq_self_iff_true, if_true, if_pos rfl] at hrec ⊢; omega
          · rw [if_neg hx] at hrec
            rw [if_neg (fun h => hx h.symm)]
            omega
      | rel p =>
          rw [validSeq, Bool.and_eq_true, decide_eq_true_eq] at hv
          obtain ⟨hpos, hv⟩ := hv
          have hrec := ih (regRelease r p) x (regNodup_release r p hnd) hv
          rw [regRef_release r p x hnd] at hrec
          simp only [regRun, regStep, countAcq, countRel]
          by_cases hx : x = p
          · subst hx
            simp only [eq_self_iff_true, if_true, if_pos rfl] at hrec ⊢
            omega
          · rw [if_neg hx] at hrec
            rw [if_neg (fun h => hx h.symm)]
            omega

/-- Behaviour of «Get» on a stored entry whose decoded expiry is strictly
before the current time: the file is deleted and the miss error returned. -/
theorem fcGet_expired (base : List String) (store : Store) (key : String)
    (tNow : Int) (b : List Nat)
    (hb : lookupStore store (keyPath base key) = some b)
    (_hlen : 8 ≤ b.length) (hexp : decodeExpiryNs b < tNow) :
    fcGet base store key tNow =
      (eraseStore store (keyPath base key), GetOutcome.miss) := by
  simp only [fcGet, hb]
  rw [if_pos hexp]

/-! ## Claim theorems -/

/-- C1.  The claim asserts that overwriting an entry with a shorter payload
truncates the file to the new encoded length and `Get` returns exactly the
new payload.  The code opens with `O_RDWR|O_CREATE` and never truncates:
after `Set(k, [1,2,3])` then `Set(k, [9])`, `Get(k)` returns `[9, 2, 3]` —
the trailing bytes of the first payload survive in the file and in the
returned slice, contradicting the claim (and the spec's own truncation
requirement, which the code was meant to implement). -/
theorem set_set_get_residue :
    (fcGet ["b"] (fcSet ["b"] (fcSet ["b"] [] "k" [1, 2, 3] (10 * nsPerSec) 0)
        "k" [9] (10 * nsPerSec) 0) "k" 0).2 = GetOutcome.hit [9, 2, 3] ∧
      GetOutcome.hit [9, 2, 3] ≠ GetOutcome.hit [9] := by
  decide

/-- C2.  The claim asserts that every stored file shorter than the 8-byte
header makes `Get` report a miss and that no filesystem condition makes
`Get` panic.  There is no length-checking decode step in `fileCache.Get`:
`b[:8]` reads the short file's bytes zero-padded (the `ReadFile` slice has
capacity at least 512), so a short file whose padded expiry is in the past
is deleted and missed — the second conjunct, a 3-byte file `[1,2,3]`
(padded expiry 197121 s, January 1970) read in 2023 — but a short file
whose padded little-endian value lies in the future, such as the 7-byte
file `[0,0,0,0,0,0,1]` (2^48 s, far future), reaches `return b[8:], nil`
and the slice bound 8 beyond the 7-byte length is a Go runtime panic, not
the claimed miss. -/
theorem get_short_file_panics_on_future_expiry :
    (fcGet ["b"] [(keyPath ["b"] "k", [0, 0, 0, 0, 0, 0, 1])] "k"
        (1700000000 * nsPerSec)).2 = GetOutcome.panicked ∧
      fcGet ["b"] [(keyPath ["b"] "k", [1, 2, 3])] "k"
        (1700000000 * nsPerSec) = ([], GetOutcome.miss) := by
  decide

/-- C3 counterexample.  A walk/stat error on an entry makes the walk
callback `return err`, which aborts `filepath.Walk` for the whole tick: an
expired file positioned after the failing entry — which one tick deletes
when it is reachable, as the second conjunct shows — survives untouched,
refuting the claim that a per-entry walk error only skips that entry. -/
theorem vacuum_walk_error_aborts_rest :
    vacuumRun (5 * nsPerSec) [VEntry.statErr, VEntry.file (encodeHeader 0 0)] =
        [VEntry.statErr, VEntry.file (encodeHeader 0 0)] ∧
      vacuumRun (5 * nsPerSec) [VEntry.file (encodeHeader 0 0)] = [] := by
  decide

/-- C3 amended.  Per-file failures inside the callback are skipped silently,
leaving the file in place and the walk running: a file that cannot be
opened, and a file whose header read reports an error without 8 bytes (an
empty file).  A walk/stat error on an entry, however, is returned from the
callback and aborts the remainder of that tick's walk. -/
theorem vacuum_skip_and_abort_behaviour (t : Int) (c : List Nat)
    (rest : List VEntry) :
    vacuumRun t (VEntry.openErr c :: rest) =
        VEntry.openErr c :: vacuumRun t rest ∧
      vacuumRun t (VEntry.file [] :: rest) =
        VEntry.file [] :: vacuumRun t rest ∧
      vacuumRun t (VEntry.statErr :: rest) = VEntry.statErr :: rest := by
  refine ⟨rfl, ?_, rfl⟩
  simp [vacuumRun]

/-- C4 counterexample.  `Get`/`Set` call `MutexAt(key)` on the raw key while
the vacuum pass calls `MutexAt(filepath.Base(path))`, the sanitised final
path component; for the key `"a:b"` the two registry strings are `"a:b"`
and `"a_b"`, so vacuum and a concurrent `Get`/`Set` for the same key lock
two different registry entries and do not serialize. -/
theorem vacuum_lock_key_differs_on_colon :
    lockKeyVacuum ["b"] "a:b" ≠ lockKeyAccess "a:b" := by
  decide

/-- C5 counterexample.  The claim treats an expiry at (equal to) the current
time as expired for both `Get` and vacuum, but both use the strict
`expires.Before(now)`: an entry whose expiry instant equals `time.Now()`
exactly is served as a hit by `Get` and kept by the vacuum pass. -/
theorem expiry_equal_now_not_expired :
    (fcGet ["b"] (fcSet ["b"] [] "k" [7] 0 (5 * nsPerSec)) "k"
        (5 * nsPerSec)).2 = GetOutcome.hit [7] ∧
      vacuumRun (5 * nsPerSec) [VEntry.file (encodeHeader (5 * nsPerSec) 0)] =
        [VEntry.file (encodeHeader (5 * nsPerSec) 0)] := by
  decide

/-- C6.  The claim asserts the round-trip `Set(k, p, ttl); Get(k) = (p, true)`
from any prior store state, including one holding a longer entry for `k`.
Because `Set` never truncates, starting from a state where `k` holds the
4-byte payload `[5,6,7,8]`, setting the 1-byte payload `[1]` and reading it
back yields `[1, 6, 7, 8]`, not `[1]`: the round-trip law fails exactly in
the prior-longer-entry case the claim includes. -/
theorem roundtrip_fails_after_longer_entry :
    (fcGet ["b"] (fcSet ["b"] (fcSet ["b"] [] "q" [5, 6, 7, 8]
          (20 * nsPerSec) 0) "q" [1] (20 * nsPerSec) nsPerSec) "q"
        (2 * nsPerSec)).2 = GetOutcome.hit [1, 6, 7, 8] ∧
      GetOutcome.hit [1, 6, 7, 8] ≠ GetOutcome.hit [1] := by
  decide

/-- C7.  The claim asserts the computed path always lies strictly inside the
four-level shard directory, naming `".."` keys.  The sanitiser only
replaces `/` and `:` — `".."` passes through, and `filepath.Join` cleans
it away: the path for key `".."` is the shard tree's third level itself
(the `..` consumed the fourth hex directory), shorter than the shard
directory and certainly not strictly inside it. -/
theorem keyPath_dotdot_escapes_shard :
    keyPath ["base"] ".." = ["base", "1c", "16", "08"] ∧
      (keyPath ["base"] "..").length < (shardDir ["base"] "..").length := by
  decide

/-- C4 amended.  For keys containing neither `/` nor `:` (the sanitiser
leaves them unchanged) and not equal to `""`, `"."` or `".."`,
the string vacuum passes to `MutexAt` — the base name of the file's path —
is the raw key itself, the same registry entry `Get` and `Set` acquire. -/
theorem vacuum_lock_key_matches_plain_key (base : List String) (key : String)
    (hsan : sanitize key = key) (h0 : key ≠ "") (h1 : key ≠ ".")
    (h2 : key ≠ "..") : lockKeyVacuum base key = lockKeyAccess key := by
  unfold lockKeyVacuum lockKeyAccess
  rw [keyPath_of_normal base key h0 h1 h2, hsan]
  simp

/-- Witness for the amended C4 at the key `"k"` and base `["b"]`. -/
theorem vacuum_lock_key_matches_plain_key_witness :
    sanitize "k" = "k" ∧ ("k" : String) ≠ "" ∧ ("k" : String) ≠ "." ∧
      ("k" : String) ≠ ".." ∧ lockKeyVacuum ["b"] "k" = lockKeyAccess "k" :=
  ⟨by decide, by decide, by decide, by decide,
    vacuum_lock_key_matches_plain_key ["b"] "k" (by decide) (by decide)
      (by decide) (by decide)⟩

/-- C5 amended.  An entry whose decoded expiry is strictly before the
current time is deleted by `Get` (which reports a miss) and removed by the
next vacuum tick; the boundary case of an expiry equal to the current
instant is not expired for either operation (see the counterexample). -/
theorem strictly_expired_get_and_vacuum_delete (base : List String)
    (store : Store) (key : String) (tNow : Int) (b c : List Nat)
    (rest : List VEntry)
    (hb : lookupStore store (keyPath base key) = some b)
    (hlen : 8 ≤ b.length)
    (hexp : decodeExpiryNs b < tNow)
    (hc : c ≠ [])
    (hcexp : decodeExpiryNs (padTo8 (c.take 8)) < tNow) :
    fcGet base store key tNow =
        (eraseStore store (keyPath base key), GetOutcome.miss) ∧
      vacuumRun tNow (VEntry.file c :: rest) = vacuumRun tNow rest := by
  constructor
  · exact fcGet_expired base store key tNow b hb hlen hexp
  · simp only [vacuumRun]
    rw [if_neg (by simpa using hc), if_pos hcexp]

/-- Witness for the amended C5: an entry expiring at second 0, read and
vacuumed at second 5, is deleted by both paths. -/
theorem strictly_expired_get_and_vacuum_delete_witness :
    lookupStore [(keyPath ["b"] "k", encodeHeader 0 0 ++ [7])]
        (keyPath ["b"] "k") = some (encodeHeader 0 0 ++ [7]) ∧
      8 ≤ (encodeHeader 0 0 ++ [7]).length ∧
      decodeExpiryNs (encodeHeader 0 0 ++ [7]) < 5 * nsPerSec ∧
      encodeHeader 0 0 ≠ [] ∧
      decodeExpiryNs (padTo8 ((encodeHeader 0 0).take 8)) < 5 * nsPerSec ∧
      (fcGet ["b"] [(keyPath ["b"] "k", encodeHeader 0 0 ++ [7])] "k"
          (5 * nsPerSec) =
        (eraseStore [(keyPath ["b"] "k", encodeHeader 0 0 ++ [7])]
          (keyPath ["b"] "k"), GetOutcome.miss) ∧
      vacuumRun (5 * nsPerSec) [VEntry.file (encodeHeader 0 0)] =
        vacuumRun (5 * nsPerSec) []) :=
  ⟨by decide, by decide, by decide, by decide, by decide,
    strictly_expired_get_and_vacuum_delete ["b"]
      [(keyPath ["b"] "k", encodeHeader 0 0 ++ [7])] "k" (5 * nsPerSec)
      (encodeHeader 0 0 ++ [7]) (encodeHeader 0 0) [] (by decide) (by decide)
      (by decide) (by decide) (by decide)⟩

/-- C10 amended.  `Set` indeed validates nothing: with any `ttl ≤ 0` it
reports success and stores an absolute expiry at or before its current
time.  An immediately following `Get` misses and deletes the file whenever
the `ttl` is strictly negative or any time at all has elapsed since the
`Set`; only in the residual case — `ttl` exactly zero, `Set` on a whole
second boundary and `Get` at that very same instant — does `Get` hit
(see the counterexample). -/
theorem nonpositive_ttl_set_then_get_miss (base : List String)
    (store : Store) (key : String) (val : List Nat) (ttl tSet tGet : Int)
    (httl : ttl ≤ 0) (httlLo : -(2 ^ 63) ≤ ttl)
    (htSet : 0 ≤ tSet) (htSetHi : tSet ≤ 2 ^ 62)
    (horder : tSet ≤ tGet)
    (hstrict : ttl < 0 ∨ tSet < tGet) :
    decodeExpiryNs ((lookupStore (fcSet base store key val ttl tSet)
        (keyPath base key)).getD []) ≤ tSet ∧
      fcGet base (fcSet base store key val ttl tSet) key tGet =
        (eraseStore (fcSet base store key val ttl tSet) (keyPath base key),
          GetOutcome.miss) := by
  have hsecLo : -(2 ^ 63) ≤ unixSec (tSet + ttl) := by
    unfold unixSec nsPerSec; omega
  have hsecHi : unixSec (tSet + ttl) < 2 ^ 63 := by
    unfold unixSec nsPerSec; omega
  have hcontent : lookupStore (fcSet base store key val ttl tSet)
      (keyPath base key) = some (encodeHeader tSet ttl ++
        (val ++ ((lookupStore store (keyPath base key)).getD []).drop
          (encodeHeader tSet ttl ++ val).length)) := by
    simp only [fcSet]
    rw [List.append_assoc]
    exact lookupStore_insert _ _ _
  have hdec : decodeExpiryNs (encodeHeader tSet ttl ++
      (val ++ ((lookupStore store (keyPath base key)).getD []).drop
        (encodeHeader tSet ttl ++ val).length)) =
      unixSec (tSet + ttl) * nsPerSec :=
    decodeExpiryNs_encode tSet ttl _ hsecLo hsecHi
  have hle : unixSec (tSet + ttl) * nsPerSec ≤ tSet := by
    unfold unixSec nsPerSec at *; omega
  have hlt : unixSec (tSet + ttl) * nsPerSec < tGet := by
    unfold unixSec nsPerSec at *; omega
  constructor
  · rw [hcontent, Option.getD_some, hdec]
    exact hle
  · exact fcGet_expired base _ key tGet _ hcontent
      (by rw [List.length_append, length_encodeHeader]; omega)
      (by rw [hdec]; exact hlt)

/-- Witness for the amended C10: `Set` with `ttl = -1 s` at second 5, `Get`
at the same instant, misses and deletes the entry. -/
theorem nonpositive_ttl_set_then_get_miss_witness :
    (-nsPerSec : Int) ≤ 0 ∧ -(2 ^ 63) ≤ (-nsPerSec : Int) ∧
      (0 : Int) ≤ 5 * nsPerSec ∧ (5 * nsPerSec : Int) ≤ 2 ^ 62 ∧
      (5 * nsPerSec : Int) ≤ 5 * nsPerSec ∧
      ((-nsPerSec : Int) < 0 ∨ (5 * nsPerSec : Int) < 5 * nsPerSec) ∧
      (decodeExpiryNs ((lookupStore (fcSet ["b"] [] "k" [7] (-nsPerSec)
          (5 * nsPerSec)) (keyPath ["b"] "k")).getD []) ≤ 5 * nsPerSec ∧
        fcGet ["b"] (fcSet ["b"] [] "k" [7] (-nsPerSec) (5 * nsPerSec)) "k"
            (5 * nsPerSec) =
          (eraseStore (fcSet ["b"] [] "k" [7] (-nsPerSec) (5 * nsPerSec))
            (keyPath ["b"] "k"), GetOutcome.miss)) :=
  ⟨by decide, by decide, by decide, by decide, by decide,
    Or.inl (by decide),
    nonpositive_ttl_set_then_get_miss ["b"] [] "k" [7] (-nsPerSec)
      (5 * nsPerSec) (5 * nsPerSec) (by decide) (by decide) (by decide)
      (by decide) (by decide) (Or.inl (by decide))⟩

/-- C8.  Across any valid sequence of registry operations (each release by
a caller that completed a matching acquire), every handle held in the
registry keeps a positive reference count, a handle is present exactly when
its reference count is positive, and after the acquires and releases of a
path balance out the registry holds no entry for that path. -/
theorem registry_present_iff_pos_and_converges (ops : List RegOp)
    (p : String) (hvalid : validSeq [] ops = true)
    (hbal : countAcq p ops = countRel p ops) :
    RegWf (regRun [] ops) ∧
      (∀ q, regPresent (regRun [] ops) q = true ↔
        0 < regRef (regRun [] ops) q) ∧
      regPresent (regRun [] ops) p = false := by
  have hwf : RegWf (regRun [] ops) :=
    regWf_run ops [] (fun e he => absurd he (List.not_mem_nil e))
  have href := regRun_ref ops [] p List.nodup_nil hvalid
  have hzero : regRef (regRun [] ops) p = 0 := by
    have h0 : regRef [] p = 0 := rfl
    omega
  refine ⟨hwf, fun q => regPresent_iff _ hwf q, ?_⟩
  have hnot : ¬ regPresent (regRun [] ops) p = true := fun h => by
    have := (regPresent_iff _ hwf p).mp h
    omega
  exact Bool.eq_false_iff.mpr hnot

/-- Witness for C8: two nested acquire/release cycles on the path `"p"`,
a valid and balanced sequence, leave the registry without an entry. -/
theorem registry_converges_witness :
    validSeq [] [RegOp.acq "p", RegOp.acq "p", RegOp.rel "p",
        RegOp.rel "p"] = true ∧
      countAcq "p" [RegOp.acq "p", RegOp.acq "p", RegOp.rel "p",
          RegOp.rel "p"] =
        countRel "p" [RegOp.acq "p", RegOp.acq "p", RegOp.rel "p",
          RegOp.rel "p"] ∧
      (RegWf (regRun [] [RegOp.acq "p", RegOp.acq "p", RegOp.rel "p",
          RegOp.rel "p"]) ∧
        (∀ q, regPresent (regRun [] [RegOp.acq "p", RegOp.acq "p",
            RegOp.rel "p", RegOp.rel "p"]) q = true ↔
          0 < regRef (regRun [] [RegOp.acq "p", RegOp.acq "p",
            RegOp.rel "p", RegOp.rel "p"]) q) ∧
        regPresent (regRun [] [RegOp.acq "p", RegOp.acq "p", RegOp.rel "p",
          RegOp.rel "p"]) "p" = false) :=
  ⟨by decide, by decide,
    registry_present_iff_pos_and_converges
      [RegOp.acq "p", RegOp.acq "p", RegOp.rel "p", RegOp.rel "p"] "p"
      (by decide) (by decide)⟩

/-- C10 counterexample.  With `ttl = 0` and `Set` executing exactly on a
whole-second boundary, the stored expiry equals `time.Now()` at a `Get`
performed at the same instant, and the strict `Before` comparison makes
`Get` return a hit, not the miss the claim asserts. -/
theorem zero_ttl_same_instant_get_hits :
    (fcGet ["b"] (fcSet ["b"] [] "k" [7] 0 0) "k" 0).2 =
      GetOutcome.hit [7] := by
  decide

end SimpleCache
